import Mathlib

/-!
Shallow embedding of `rebalance.py` (rebalance-lnd), covering the route
augmentation and validation core: policy lookup, fee calculation, the
backward amount and expiry passes, terminal-hop creation, route totals,
and the candidate selector.

Modelling conventions, matching the source:

* The script targets Python 2: `/` on two integers is floor division
  (the explicit `float(...)` casts at the two ratio computations are
  there precisely because bare `/` on integers floors, and the
  protobuf integer fields `amt_to_forward` / `fee` are assigned the
  result of `/ 1000` directly).  Integer `/` and `//` are therefore
  both embedded as `Int.fdiv` (floor division).
* The two floating-point ratio comparisons (`float(local) / (remote +
  local) < 0.5`) are embedded as exact rational comparisons using
  `Rat.divInt`.
* gRPC-fetched data (graph edges, channel list, node identity, block
  height, invoice expiry delta, payment amount) is passed explicitly
  through a `Ctx` record; each embedded function takes exactly the
  snapshot the Python global helpers would read.
* A Python expression that raises an uncaught exception
  (`AttributeError` on a missing policy, `ZeroDivisionError`,
  `IndexError` on an empty hop list) is embedded as `none` /
  `AddResult.crash`; `rebalance.py` installs no handler for any of
  these, so they abort the process.
* `hasattr(policy, "fee_base_msat")` is embedded as an optional field
  defaulting to zero, as in `get_fee_base_msat`.
-/

namespace Rebalance

/-- Directional routing policy of one endpoint of a channel edge
(`routing_policy` message): base fee in msat (sometimes absent, see
`get_fee_base_msat`), proportional rate in ppm, and time-lock delta. -/
structure Policy where
  fee_base_msat : Option Int
  fee_rate_milli_msat : Int
  time_lock_delta : Nat
deriving DecidableEq, Repr

/-- Channel-graph edge as returned by `DescribeGraph`: channel id, the
two endpoint identities, and one directional policy per endpoint. -/
structure Edge where
  channel_id : Nat
  node1_pub : String
  node2_pub : String
  node1_policy : Policy
  node2_policy : Policy
deriving DecidableEq, Repr

/-- Local channel as returned by `ListChannels(active_only=True)`. -/
structure Channel where
  chan_id : Nat
  remote_pubkey : String
  capacity : Int
  local_balance : Int
  remote_balance : Int
deriving DecidableEq, Repr

/-- Hop of a route (`ln.Hop`). -/
structure Hop where
  chan_id : Nat
  chan_capacity : Int
  amt_to_forward : Int
  amt_to_forward_msat : Int
  fee : Int
  fee_msat : Int
  expiry : Nat
  pub_key : String
deriving DecidableEq, Repr

/-- Route (`ln.Route`): hop list plus aggregate totals. -/
structure Route where
  hops : List Hop
  total_time_lock : Nat
  total_fees : Int
  total_fees_msat : Int
  total_amt : Int
  total_amt_msat : Int
deriving DecidableEq, Repr

/-- Snapshot of everything `add_channel` and its helpers read from the
gRPC stub and the module-level globals of `rebalance.py`. -/
structure Ctx where
  edges : List Edge
  channels : List Channel
  amount : Int
  own_pubkey : String
  block_height : Nat
  cltv_expiry_last_hop : Nat
deriving DecidableEq, Repr

/-- Embeds `get_policy(channel_id, target_pubkey)`: scan the graph
edges for the first one with the given channel id; if its `node1_pub`
equals the target, return `node1_policy`, otherwise `node2_policy`.
Falling off the loop (no matching edge) returns Python `None`. -/
def get_policy (edges : List Edge) (channel_id : Nat) (target_pubkey : String) :
    Option Policy :=
  match edges.find? (fun edge => edge.channel_id == channel_id) with
  | some edge =>
      some (if edge.node1_pub == target_pubkey then edge.node1_policy
            else edge.node2_policy)
  | none => none

/-- Embeds `get_fee_base_msat(policy)`: a missing `fee_base_msat`
field is interpreted as `0`. -/
def get_fee_base_msat (policy : Policy) : Int :=
  policy.fee_base_msat.getD 0

/-- Embeds `get_fee_msat(amount_msat, channel_id, target_pubkey)`:
`fee_base_msat + fee_rate_milli_msat * amount_msat / 1000000` with
Python 2 integer division (floor).  A missing policy makes the Python
code raise `AttributeError` (embedded as `none`). -/
def get_fee_msat (edges : List Edge) (amount_msat : Int) (channel_id : Nat)
    (target_pubkey : String) : Option Int :=
  (get_policy edges channel_id target_pubkey).map (fun policy =>
    get_fee_base_msat policy +
      Int.fdiv (policy.fee_rate_milli_msat * amount_msat) 1000000)

/-- Embeds `get_local_ratio(channel)`:
`float(local) / (remote + local)` as an exact rational; a zero total
balance raises `ZeroDivisionError` (embedded as `none`). -/
def get_local_ratio_val (channel : Channel) : Option ℚ :=
  if channel.remote_balance + channel.local_balance = 0 then none
  else some (Rat.divInt channel.local_balance
      (channel.remote_balance + channel.local_balance))

/-- Embeds `get_remote_surplus(channel)`. -/
def get_remote_surplus (channel : Channel) : Int :=
  channel.remote_balance - channel.local_balance

/-- Result of the filter predicate `get_local_ratio(c) < 0.5` of
`get_rebalance_candidates`; `none` when the ratio computation raises. -/
def ratio_below_half (channel : Channel) : Option Bool :=
  (get_local_ratio_val channel).map (fun q => decide (q < Rat.divInt 1 2))

/-- The `filter(lambda c: get_local_ratio(c) < 0.5, channels)` step of
`get_rebalance_candidates`, propagating a raised `ZeroDivisionError`. -/
def filter_low_local : List Channel → Option (List Channel)
  | [] => some []
  | channel :: rest =>
    match ratio_below_half channel with
    | none => none
    | some b =>
        (filter_low_local rest).map (fun r => if b then channel :: r else r)

/-- Comparator realising `sorted(..., key=get_remote_surplus,
reverse=True)`: a stable sort that puts larger surpluses first. -/
def surplus_ge (a b : Channel) : Bool :=
  decide (get_remote_surplus b ≤ get_remote_surplus a)

/-- Embeds `get_rebalance_candidates()` applied to a channel-list
snapshot: filter channels with local ratio below one half, then sort
descending by remote surplus.  Python's `sorted` is a stable sort;
with `reverse=True` it keeps ties in input order, which is exactly
`List.mergeSort` with the `surplus_ge` comparator. -/
def get_rebalance_candidates (channels : List Channel) : Option (List Channel) :=
  (filter_low_local channels).map (fun low_local => low_local.mergeSort surplus_ge)

/-- Embeds `get_channel(pubkey)`: first channel with the given remote
pubkey, Python `None` when there is none. -/
def get_channel (channels : List Channel) (pubkey : String) : Option Channel :=
  channels.find? (fun channel => channel.remote_pubkey == pubkey)

/-- Embeds `low_local_ratio_after_sending(hops)`: look up the channel
of the first hop's target, and compare the local ratio after moving
`amount` from local to remote against one half.  `none` embeds the
uncaught exceptions: `IndexError` on an empty hop list,
`AttributeError` when `get_channel` returned `None`, and
`ZeroDivisionError` on a zero denominator. -/
def low_local_ratio_after_sending (ctx : Ctx) (hops : List Hop) : Option Bool :=
  match hops with
  | [] => none
  | first :: _ =>
    match get_channel ctx.channels first.pub_key with
    | none => none
    | some channel =>
      let remote := channel.remote_balance + ctx.amount
      let local_bal := channel.local_balance - ctx.amount
      if remote + local_bal = 0 then none
      else some (decide (Rat.divInt local_bal (remote + local_bal) < Rat.divInt 1 2))

/-- Embeds `is_first_hop(hops, channel)`; `none` is the `IndexError`
on an empty hop list. -/
def is_first_hop (hops : List Hop) (channel : Channel) : Option Bool :=
  match hops with
  | [] => none
  | first :: _ => some (first.pub_key == channel.remote_pubkey)

/-- The per-hop mutation performed by the loop body of
`update_amounts`: store the new forward amount and fee (msat and,
via floor division, base units). -/
def set_amt_fee (hop : Hop) (amount_msat fee_msat : Int) : Hop :=
  { hop with
    amt_to_forward_msat := amount_msat
    amt_to_forward := Int.fdiv amount_msat 1000
    fee_msat := fee_msat
    fee := Int.fdiv fee_msat 1000 }

/-- Embeds the loop of `update_amounts(hops)` acting on the reversed
hop list, threading the `additional_fees` accumulator: each hop's
forward amount grows by the accumulated fee delta, its fee is
recomputed from the new amount, and the difference between new and
old fee is added to the accumulator. -/
def update_amounts_rev (edges : List Edge) :
    List Hop → Int → Option (List Hop)
  | [], _ => some []
  | hop :: rest, additional_fees =>
    let amount_to_forward_msat := hop.amt_to_forward_msat + additional_fees
    match get_fee_msat edges amount_to_forward_msat hop.chan_id hop.pub_key with
    | none => none
    | some new_fee_msat =>
        (update_amounts_rev edges rest
            (additional_fees + (new_fee_msat - hop.fee_msat))).map
          (fun rest' => set_amt_fee hop amount_to_forward_msat new_fee_msat :: rest')

/-- Embeds `update_amounts(hops)` (the `for hop in reversed(hops)`
loop), returning the mutated hop list. -/
def update_amounts (edges : List Edge) (hops : List Hop) : Option (List Hop) :=
  (update_amounts_rev edges hops.reverse 0).map List.reverse

/-- Embeds the loop of `update_expiry(hops)` acting on the reversed
hop list, threading the `total_time_lock` accumulator: assign the
accumulator to the hop's expiry, then add the hop's policy time-lock
delta.  A missing policy raises `AttributeError` (`none`). -/
def update_expiry_rev (edges : List Edge) :
    List Hop → Nat → Option (List Hop × Nat)
  | [], total_time_lock => some ([], total_time_lock)
  | hop :: rest, total_time_lock =>
    match get_policy edges hop.chan_id hop.pub_key with
    | none => none
    | some policy =>
        (update_expiry_rev edges rest (total_time_lock + policy.time_lock_delta)).map
          (fun p => ({ hop with expiry := total_time_lock } :: p.1, p.2))

/-- Embeds `update_expiry(hops)` together with the final value of the
module-level `total_time_lock` accumulator it leaves behind. -/
def update_expiry (edges : List Edge) (hops : List Hop) (total_time_lock : Nat) :
    Option (List Hop × Nat) :=
  (update_expiry_rev edges hops.reverse total_time_lock).map
    (fun p => (p.1.reverse, p.2))

/-- Embeds `create_new_hop(amount_msat, channel, expiry)`: the
terminal hop toward the node's own identity over the rebalance
channel, with zero fee. -/
def create_new_hop (own_pubkey : String) (amount_msat : Int) (channel : Channel)
    (expiry : Nat) : Hop :=
  { chan_capacity := channel.capacity
    fee_msat := 0
    fee := 0
    expiry := expiry
    amt_to_forward_msat := amount_msat
    amt_to_forward := Int.fdiv amount_msat 1000
    chan_id := channel.chan_id
    pub_key := own_pubkey }

/-- Embeds `update_route_totals(route)` with the fee ceiling
(`HIGH_FEES_THRESHOLD_MSAT`, a module constant in the source) and the
`total_time_lock` global as explicit arguments.  `some none` is the
Python `False` return ("High fees!"), `some (some r)` the `True`
return with the totals attached, and the outer `none` the `IndexError`
of `route.hops[-1]` on an empty hop list. -/
def update_route_totals (threshold : Int) (total_time_lock : Nat) (route : Route) :
    Option (Option Route) :=
  let total_fee_msat := (route.hops.map Hop.fee_msat).sum
  if total_fee_msat > threshold then some none
  else
    match route.hops.getLast? with
    | none => none
    | some last =>
      let total_amount_msat := last.amt_to_forward_msat + total_fee_msat
      some (some { route with
        total_amt_msat := total_amount_msat
        total_amt := Int.fdiv total_amount_msat 1000
        total_fees_msat := total_fee_msat
        total_fees := Int.fdiv total_fee_msat 1000
        total_time_lock := total_time_lock })

/-- Outcome of one `add_channel(route, channel)` call: `crash` is an
uncaught Python exception, `rejected` the `None` return consumed by
`add_channel_to_routes`, `accepted` the returned route. -/
inductive AddResult where
  | crash : AddResult
  | rejected : AddResult
  | accepted : Route → AddResult
deriving DecidableEq, Repr

/-- Embeds `add_channel(route, channel)`: precondition checks, the
backward amount pass, the backward expiry pass (run, as in the
source, before the terminal hop is appended), the append of the
terminal hop, and the totals validation. -/
def add_channel (ctx : Ctx) (threshold : Int) (route : Route) (channel : Channel) :
    AddResult :=
  let hops := route.hops
  match low_local_ratio_after_sending ctx hops with
  | none => .crash
  | some true => .rejected
  | some false =>
    match is_first_hop hops channel with
    | none => .crash
    | some true => .rejected
    | some false =>
      match hops.getLast? with
      | none => .crash
      | some last_hop =>
        let amount_msat := last_hop.amt_to_forward_msat
        let expiry_last_hop := ctx.block_height + ctx.cltv_expiry_last_hop
        match update_amounts ctx.edges hops with
        | none => .crash
        | some hops_amounts =>
          match update_expiry ctx.edges hops_amounts expiry_last_hop with
          | none => .crash
          | some (hops_expiry, total_time_lock) =>
            let new_hops := hops_expiry ++
              [create_new_hop ctx.own_pubkey amount_msat channel expiry_last_hop]
            match update_route_totals threshold total_time_lock
                { route with hops := new_hops } with
            | none => .crash
            | some none => .rejected
            | some (some result) => .accepted result

/-- Boolean evaluator for a relation on all adjacent pairs of a list,
used to give the consistency predicates kernel-computable
decidability. -/
def adjacent_all {α : Type} (R : α → α → Bool) : List α → Bool
  | [] => true
  | [_] => true
  | a :: b :: rest => R a b && adjacent_all R (b :: rest)

theorem adjacent_all_iff {α : Type} (R : α → α → Bool) :
    ∀ l : List α, adjacent_all R l = true ↔
      List.Chain' (fun a b => R a b = true) l
  | [] => by simp [adjacent_all]
  | [a] => by simp [adjacent_all]
  | a :: b :: rest => by
    rw [List.chain'_cons, ← adjacent_all_iff R (b :: rest)]
    simp [adjacent_all]

/-- Onion amount consistency of a hop list: each hop forwards what the
next hop forwards plus the next hop's fee (in msat). -/
def amt_consistent (hops : List Hop) : Prop :=
  List.Chain' (fun a b =>
    a.amt_to_forward_msat = b.amt_to_forward_msat + b.fee_msat) hops

instance (hops : List Hop) : Decidable (amt_consistent hops) :=
  decidable_of_iff
    (adjacent_all (fun a b =>
      a.amt_to_forward_msat == b.amt_to_forward_msat + b.fee_msat) hops = true)
    (by
      rw [adjacent_all_iff]
      constructor
      · exact fun h => h.imp (fun _ _ hab => eq_of_beq hab)
      · exact fun h => h.imp (fun _ _ hab => beq_iff_eq.mpr hab))

/-- Boolean link of the expiry invariant between two adjacent hops:
the earlier hop's expiry is the later hop's expiry plus the time-lock
delta of the later hop's policy (as resolved by `get_policy`). -/
def expiry_link_b (edges : List Edge) (a b : Hop) : Bool :=
  match get_policy edges b.chan_id b.pub_key with
  | some policy => a.expiry == b.expiry + policy.time_lock_delta
  | none => false

/-- Expiry consistency of a hop list: the `expiry_link_b` relation
holds between every pair of adjacent hops. -/
def expiry_consistent (edges : List Edge) (hops : List Hop) : Prop :=
  List.Chain' (fun a b => expiry_link_b edges a b = true) hops

instance (edges : List Edge) (hops : List Hop) :
    Decidable (expiry_consistent edges hops) :=
  decidable_of_iff (adjacent_all (expiry_link_b edges) hops = true)
    (adjacent_all_iff (expiry_link_b edges) hops)

/-! Concrete inputs used by the closed counterexample and witness
theorems below.  The node's own identity is `"S"`; edge 1 is the
channel of the discovered route's single hop (toward `"A"`), edge 2
the rebalance channel (between `"S"` and `"B"`). -/

/-- Policy advertised by node `"A"` on channel 1. -/
def pA : Policy := ⟨some 1000, 10, 40⟩

/-- Policy advertised by node `"S"` on channel 1. -/
def pS1 : Policy := ⟨some 500, 5, 30⟩

/-- Policy advertised by node `"S"` on channel 2 (the rebalance channel). -/
def pS2 : Policy := ⟨some 2000, 0, 40⟩

/-- Policy advertised by node `"B"` on channel 2. -/
def pB : Policy := ⟨some 700, 7, 50⟩

/-- Graph edge of channel 1 between `"A"` and `"S"`. -/
def e1 : Edge := ⟨1, "A", "S", pA, pS1⟩

/-- Graph edge of channel 2 between `"S"` and `"B"`. -/
def e2 : Edge := ⟨2, "S", "B", pS2, pB⟩

/-- Local channel toward `"A"`, comfortably local-heavy. -/
def chA : Channel := ⟨10, "A", 200000, 150000, 50000⟩

/-- The rebalance channel toward `"B"`. -/
def exChan : Channel := ⟨2, "B", 300000, 1000, 299000⟩

/-- Context snapshot for the example runs. -/
def exCtx : Ctx := ⟨[e1, e2], [chA], 10000, "S", 600000, 144⟩

/-- Single hop of the discovered route: channel 1 toward `"A"`,
forwarding 1000000 msat. -/
def h0 : Hop := ⟨1, 100000, 1000, 1000000, 0, 0, 0, "A"⟩

/-- The discovered route before augmentation. -/
def exRoute : Route := ⟨[h0], 0, 0, 0, 0, 0⟩

/-- The fee ceiling `HIGH_FEES_THRESHOLD_MSAT` of the source. -/
def HIGH_FEES_THRESHOLD_MSAT : Int := 3000000

/-- Route produced by augmenting `exRoute` with `exChan`. -/
def exAug : Route :=
  ⟨[⟨1, 100000, 1000, 1000000, 1, 1010, 600144, "A"⟩,
    ⟨2, 300000, 1000, 1000000, 0, 0, 600144, "S"⟩],
   600184, 1, 1010, 1001, 1001010⟩

/-- Route produced by augmenting the already-augmented `exAug` a
second time with the same inputs: a second terminal hop appears. -/
def exAug2 : Route :=
  ⟨[⟨1, 100000, 1002, 1002000, 1, 1010, 600184, "A"⟩,
    ⟨2, 300000, 1000, 1000000, 2, 2000, 600144, "S"⟩,
    ⟨2, 300000, 1000, 1000000, 0, 0, 600144, "S"⟩],
   600224, 3, 3010, 1003, 1003010⟩

/-- Context identical to `exCtx` except that the graph snapshot has no
edges, so every policy lookup comes back empty. -/
def exCtxNoEdges : Ctx := ⟨[], [chA], 10000, "S", 600000, 144⟩

/-- C1: the claim says `get_policy` returns the policy advertised by
the endpoint that is NOT the target identity.  The code does the
opposite: with channel 1 between `"A"` (with `node1_policy`) and
`"S"` (with `node2_policy`) and target `"A"`, it returns
`node1_policy` — the policy advertised by the target endpoint itself —
even though the two directional policies differ. -/
theorem c1_policy_direction_code_bug :
    get_policy [e1] 1 "A" = some e1.node1_policy ∧
      e1.node1_policy ≠ e1.node2_policy :=
  ⟨by decide, by decide⟩

/-- C2: the claim says every accepted route satisfies
`hop[i].expiry = hop[i+1].expiry + policy(hop[i+1]).time_lock_delta`
including at the boundary with the appended terminal hop.  In the code
`update_expiry` runs before the terminal hop is appended, so on this
accepted two-hop route both hops carry the same expiry 600144 even
though the appended hop's policy has time-lock delta 40: the boundary
pair violates the invariant. -/
theorem c2_expiry_boundary_code_bug :
    add_channel exCtx HIGH_FEES_THRESHOLD_MSAT exRoute exChan = .accepted exAug ∧
    get_policy exCtx.edges 2 "S" = some pS2 ∧
    pS2.time_lock_delta = 40 ∧
    exAug.hops.map Hop.expiry = [600144, 600144] ∧
    ¬ expiry_consistent exCtx.edges exAug.hops :=
  ⟨by decide, by decide, by decide, by decide, by decide⟩

/-- C4: for every graph snapshot under which the policy resolves, the
fee calculator returns exactly
`base_fee_msat + floor(rate_ppm * amount_msat / 1000000)`, a pure
function of its integer arguments. -/
theorem c4_get_fee_msat_floor (edges : List Edge) (amount_msat : Int)
    (channel_id : Nat) (target_pubkey : String) (policy : Policy)
    (h : get_policy edges channel_id target_pubkey = some policy) :
    get_fee_msat edges amount_msat channel_id target_pubkey =
      some (get_fee_base_msat policy +
        ⌊((policy.fee_rate_milli_msat * amount_msat : ℤ) : ℚ) / 1000000⌋) := by
  unfold get_fee_msat
  rw [h, Option.map_some']
  have hfloor : Int.fdiv (policy.fee_rate_milli_msat * amount_msat) 1000000 =
      ⌊((policy.fee_rate_milli_msat * amount_msat : ℤ) : ℚ) / 1000000⌋ := by
    rw [Int.fdiv_eq_ediv _ (by norm_num)]
    rw [show ((1000000 : ℚ)) = ((1000000 : ℕ) : ℚ) by norm_num]
    rw [Rat.floor_intCast_div_natCast]
    norm_num
  rw [hfloor]

/-- Witness for C4 at a concrete input: policy `pA` on channel 1
toward `"A"`, amount 1000000 msat. -/
theorem c4_get_fee_msat_floor_witness :
    get_policy [e1] 1 "A" = some pA ∧
    get_fee_msat [e1] 1000000 1 "A" =
      some (get_fee_base_msat pA +
        ⌊((pA.fee_rate_milli_msat * 1000000 : ℤ) : ℚ) / 1000000⌋) :=
  ⟨by decide, c4_get_fee_msat_floor [e1] 1000000 1 "A" pA (by decide)⟩

/-- C8: the route validator is a pure threshold comparison on the sum
of the hop fees: it rejects exactly when the fee sum exceeds the
ceiling, accepts exactly when it does not (for a nonempty hop list),
and is therefore monotone in the ceiling in both directions. -/
theorem c8_threshold_monotone (route : Route) (total_time_lock : Nat)
    (c1 c2 : Int) (hne : route.hops ≠ []) (hle : c1 ≤ c2) :
    (∀ t : Int, update_route_totals t total_time_lock route = some none ↔
      (route.hops.map Hop.fee_msat).sum > t) ∧
    (∀ t : Int, (∃ r, update_route_totals t total_time_lock route = some (some r)) ↔
      (route.hops.map Hop.fee_msat).sum ≤ t) ∧
    ((∃ r, update_route_totals c1 total_time_lock route = some (some r)) →
      ∃ r, update_route_totals c2 total_time_lock route = some (some r)) ∧
    (update_route_totals c2 total_time_lock route = some none →
      update_route_totals c1 total_time_lock route = some none) := by
  obtain ⟨last, hlast⟩ : ∃ last, route.hops.getLast? = some last := by
    cases h : route.hops.getLast? with
    | none => exact absurd (List.getLast?_eq_none_iff.mp h) hne
    | some last => exact ⟨last, rfl⟩
  have hrej : ∀ t : Int, update_route_totals t total_time_lock route = some none ↔
      (route.hops.map Hop.fee_msat).sum > t := by
    intro t
    unfold update_route_totals
    rw [hlast]
    by_cases hgt : (route.hops.map Hop.fee_msat).sum > t
    · simp [hgt]
    · simp [hgt]
  have hacc : ∀ t : Int,
      (∃ r, update_route_totals t total_time_lock route = some (some r)) ↔
      (route.hops.map Hop.fee_msat).sum ≤ t := by
    intro t
    unfold update_route_totals
    rw [hlast]
    by_cases hgt : (route.hops.map Hop.fee_msat).sum > t
    · simp [hgt]
    · simp [hgt]
      omega
  refine ⟨hrej, hacc, ?_, ?_⟩
  · intro h
    exact (hacc c2).mpr (le_trans ((hacc c1).mp h) hle)
  · intro h
    exact (hrej c1).mpr (lt_of_le_of_lt hle ((hrej c2).mp h))

/-- Witness for C8: the validator outcomes on the concrete augmented
route `exAug` under ceilings 1000 and 2000. -/
theorem c8_threshold_monotone_witness :
    exAug.hops ≠ [] ∧ (1000 : Int) ≤ 2000 ∧
    ((∀ t : Int, update_route_totals t 600184 exAug = some none ↔
      (exAug.hops.map Hop.fee_msat).sum > t) ∧
    (∀ t : Int, (∃ r, update_route_totals t 600184 exAug = some (some r)) ↔
      (exAug.hops.map Hop.fee_msat).sum ≤ t) ∧
    ((∃ r, update_route_totals 1000 600184 exAug = some (some r)) →
      ∃ r, update_route_totals 2000 600184 exAug = some (some r)) ∧
    (update_route_totals 2000 600184 exAug = some none →
      update_route_totals 1000 600184 exAug = some none)) :=
  ⟨by decide, by decide,
    c8_threshold_monotone exAug 600184 1000 2000 (by decide) (by decide)⟩

/-- View of a hop's forwarded amount and fee (msat), the fields the
amount invariant reads; the expiry pass leaves them untouched. -/
def hop_amt_fee (h : Hop) : Int × Int := (h.amt_to_forward_msat, h.fee_msat)

theorem update_amounts_rev_cons (edges : List Edge) (hop : Hop) (rest : List Hop)
    (acc : Int) (l' : List Hop)
    (h : update_amounts_rev edges (hop :: rest) acc = some l') :
    ∃ f rest',
      get_fee_msat edges (hop.amt_to_forward_msat + acc) hop.chan_id hop.pub_key
        = some f ∧
      update_amounts_rev edges rest (acc + (f - hop.fee_msat)) = some rest' ∧
      l' = set_amt_fee hop (hop.amt_to_forward_msat + acc) f :: rest' := by
  unfold update_amounts_rev at h
  cases hf : get_fee_msat edges (hop.amt_to_forward_msat + acc) hop.chan_id
      hop.pub_key with
  | none =>
    simp only [hf] at h
    exact Option.noConfusion h
  | some f =>
    simp only [hf] at h
    cases hr : update_amounts_rev edges rest (acc + (f - hop.fee_msat)) with
    | none =>
      simp only [hr, Option.map_none'] at h
      exact Option.noConfusion h
    | some rest' =>
      simp only [hr, Option.map_some', Option.some.injEq] at h
      exact ⟨f, rest', rfl, hr, h.symm⟩

theorem update_amounts_rev_chain (edges : List Edge) :
    ∀ (l : List Hop) (acc : Int) (l' : List Hop),
      update_amounts_rev edges l acc = some l' →
      List.Chain' (fun x y =>
        y.amt_to_forward_msat = x.amt_to_forward_msat + x.fee_msat) l →
      List.Chain' (fun x y =>
        y.amt_to_forward_msat = x.amt_to_forward_msat + x.fee_msat) l' := by
  intro l
  induction l with
  | nil =>
    intro acc l' h _
    unfold update_amounts_rev at h
    simp only [Option.some.injEq] at h
    subst h
    exact List.chain'_nil
  | cons hop rest ih =>
    intro acc l' h hc
    obtain ⟨f, rest', hf, hr, rfl⟩ := update_amounts_rev_cons edges hop rest acc l' h
    cases rest with
    | nil =>
      unfold update_amounts_rev at hr
      simp only [Option.some.injEq] at hr
      subst hr
      exact List.chain'_singleton _
    | cons y rest2 =>
      have hc' := List.chain'_cons.mp hc
      have hchain := ih (acc + (f - hop.fee_msat)) rest' hr hc'.2
      obtain ⟨f2, rest'', hf2, hr2, rfl⟩ :=
        update_amounts_rev_cons edges y rest2 (acc + (f - hop.fee_msat)) rest' hr
      refine List.chain'_cons.mpr ⟨?_, hchain⟩
      simp only [set_amt_fee]
      omega

theorem update_amounts_rev_map_pub (edges : List Edge) :
    ∀ (l : List Hop) (acc : Int) (l' : List Hop),
      update_amounts_rev edges l acc = some l' →
      l'.map Hop.pub_key = l.map Hop.pub_key := by
  intro l
  induction l with
  | nil =>
    intro acc l' h
    unfold update_amounts_rev at h
    simp only [Option.some.injEq] at h
    subst h
    rfl
  | cons hop rest ih =>
    intro acc l' h
    obtain ⟨f, rest', _, hr, rfl⟩ := update_amounts_rev_cons edges hop rest acc l' h
    simp only [List.map_cons, set_amt_fee]
    rw [ih _ rest' hr]

theorem update_expiry_rev_cons (edges : List Edge) (hop : Hop) (rest : List Hop)
    (tl : Nat) (res : List Hop × Nat)
    (h : update_expiry_rev edges (hop :: rest) tl = some res) :
    ∃ policy rest' tl',
      get_policy edges hop.chan_id hop.pub_key = some policy ∧
      update_expiry_rev edges rest (tl + policy.time_lock_delta) = some (rest', tl') ∧
      res = ({ hop with expiry := tl } :: rest', tl') := by
  unfold update_expiry_rev at h
  cases hp : get_policy edges hop.chan_id hop.pub_key with
  | none =>
    simp only [hp] at h
    exact Option.noConfusion h
  | some policy =>
    simp only [hp] at h
    cases hr : update_expiry_rev edges rest (tl + policy.time_lock_delta) with
    | none =>
      simp only [hr, Option.map_none'] at h
      exact Option.noConfusion h
    | some pr =>
      simp only [hr, Option.map_some', Option.some.injEq] at h
      exact ⟨policy, pr.1, pr.2, rfl, by rw [hr], h.symm⟩

theorem update_expiry_rev_map_amt_fee (edges : List Edge) :
    ∀ (l : List Hop) (tl : Nat) (l' : List Hop) (tl' : Nat),
      update_expiry_rev edges l tl = some (l', tl') →
      l'.map hop_amt_fee = l.map hop_amt_fee := by
  intro l
  induction l with
  | nil =>
    intro tl l' tl' h
    unfold update_expiry_rev at h
    simp only [Option.some.injEq, Prod.mk.injEq] at h
    rw [← h.1]
  | cons hop rest ih =>
    intro tl l' tl' h
    obtain ⟨policy, rest', tlr, _, hr, hres⟩ :=
      update_expiry_rev_cons edges hop rest tl (l', tl') h
    simp only [Prod.mk.injEq] at hres
    obtain ⟨h1, _⟩ := hres
    subst h1
    simp only [List.map_cons, hop_amt_fee]
    rw [ih _ rest' tlr hr]

theorem update_expiry_rev_map_pub (edges : List Edge) :
    ∀ (l : List Hop) (tl : Nat) (l' : List Hop) (tl' : Nat),
      update_expiry_rev edges l tl = some (l', tl') →
      l'.map Hop.pub_key = l.map Hop.pub_key := by
  intro l
  induction l with
  | nil =>
    intro tl l' tl' h
    unfold update_expiry_rev at h
    simp only [Option.some.injEq, Prod.mk.injEq] at h
    rw [← h.1]
  | cons hop rest ih =>
    intro tl l' tl' h
    obtain ⟨policy, rest', tlr, _, hr, hres⟩ :=
      update_expiry_rev_cons edges hop rest tl (l', tl') h
    simp only [Prod.mk.injEq] at hres
    obtain ⟨h1, _⟩ := hres
    subst h1
    simp only [List.map_cons]
    rw [ih _ rest' tlr hr]

theorem chain'_reverse_flip {α : Type} (R : α → α → Prop) (l : List α) :
    List.Chain' R l.reverse ↔ List.Chain' (fun a b => R b a) l :=
  List.chain'_reverse

theorem update_route_totals_hops (threshold : Int) (tl : Nat) (r result : Route)
    (h : update_route_totals threshold tl r = some (some result)) :
    result.hops = r.hops := by
  unfold update_route_totals at h
  by_cases hgt : (r.hops.map Hop.fee_msat).sum > threshold
  · simp [hgt] at h
  · cases hl : r.hops.getLast? with
    | none => simp [hgt, hl] at h
    | some last =>
      simp only [hgt, hl, if_false, ite_false, Option.some.injEq] at h
      rw [← h]

theorem update_amounts_chain (edges : List Edge) (hops hops' : List Hop)
    (h : update_amounts edges hops = some hops') (hc : amt_consistent hops) :
    amt_consistent hops' := by
  unfold update_amounts at h
  cases hr : update_amounts_rev edges hops.reverse 0 with
  | none =>
    rw [hr] at h
    exact Option.noConfusion h
  | some l' =>
    rw [hr] at h
    simp only [Option.map_some', Option.some.injEq] at h
    subst h
    unfold amt_consistent at hc ⊢
    rw [chain'_reverse_flip]
    refine update_amounts_rev_chain edges hops.reverse 0 l' hr ?_
    rw [chain'_reverse_flip]
    exact hc

theorem update_amounts_last (edges : List Edge) (hops hops' : List Hop) (x : Hop)
    (h : update_amounts edges hops = some hops') (hl : hops.getLast? = some x) :
    ∃ f, get_fee_msat edges x.amt_to_forward_msat x.chan_id x.pub_key = some f ∧
      hops'.getLast? = some (set_amt_fee x x.amt_to_forward_msat f) := by
  unfold update_amounts at h
  have hrev : hops.reverse.head? = some x := by
    rw [List.head?_reverse]
    exact hl
  cases hrl : hops.reverse with
  | nil =>
    rw [hrl] at hrev
    exact Option.noConfusion hrev
  | cons y rrest =>
    rw [hrl] at hrev h
    have hyx : y = x := Option.some.inj hrev
    subst hyx
    cases hu : update_amounts_rev edges (y :: rrest) 0 with
    | none =>
      rw [hu] at h
      exact Option.noConfusion h
    | some l' =>
      rw [hu] at h
      simp only [Option.map_some', Option.some.injEq] at h
      subst h
      obtain ⟨f, rest', hf, _, rfl⟩ := update_amounts_rev_cons edges y rrest 0 l' hu
      rw [add_zero] at hf
      refine ⟨f, hf, ?_⟩
      rw [List.getLast?_reverse]
      simp only [List.head?_cons, Option.some.injEq]
      rw [add_zero]

theorem update_expiry_forward (edges : List Edge) (hops hops' : List Hop)
    (tl tl' : Nat) (h : update_expiry edges hops tl = some (hops', tl')) :
    hops'.map hop_amt_fee = hops.map hop_amt_fee ∧
    hops'.map Hop.pub_key = hops.map Hop.pub_key := by
  unfold update_expiry at h
  cases hr : update_expiry_rev edges hops.reverse tl with
  | none =>
    rw [hr] at h
    exact Option.noConfusion h
  | some pr =>
    rw [hr] at h
    simp only [Option.map_some', Option.some.injEq, Prod.mk.injEq] at h
    obtain ⟨h1, _⟩ := h
    subst h1
    constructor
    · have hm := update_expiry_rev_map_amt_fee edges hops.reverse tl pr.1 pr.2
        (by rw [hr])
      rw [List.map_reverse, hm, List.map_reverse, List.reverse_reverse]
    · have hm := update_expiry_rev_map_pub edges hops.reverse tl pr.1 pr.2
        (by rw [hr])
      rw [List.map_reverse, hm, List.map_reverse, List.reverse_reverse]

theorem add_channel_accepted_inv (ctx : Ctx) (threshold : Int) (route : Route)
    (channel : Channel) (result : Route)
    (h : add_channel ctx threshold route channel = .accepted result) :
    ∃ last_hop hops_amounts hops_expiry tl,
      low_local_ratio_after_sending ctx route.hops = some false ∧
      is_first_hop route.hops channel = some false ∧
      route.hops.getLast? = some last_hop ∧
      update_amounts ctx.edges route.hops = some hops_amounts ∧
      update_expiry ctx.edges hops_amounts
        (ctx.block_height + ctx.cltv_expiry_last_hop) = some (hops_expiry, tl) ∧
      result.hops = hops_expiry ++
        [create_new_hop ctx.own_pubkey last_hop.amt_to_forward_msat channel
          (ctx.block_height + ctx.cltv_expiry_last_hop)] := by
  simp only [add_channel] at h
  cases hlow : low_local_ratio_after_sending ctx route.hops with
  | none =>
    simp only [hlow] at h
    exact AddResult.noConfusion h
  | some b1 =>
    cases b1 with
    | true =>
      simp only [hlow] at h
      exact AddResult.noConfusion h
    | false =>
      simp only [hlow] at h
      cases hfirst : is_first_hop route.hops channel with
      | none =>
        simp only [hfirst] at h
        exact AddResult.noConfusion h
      | some b2 =>
        cases b2 with
        | true =>
          simp only [hfirst] at h
          exact AddResult.noConfusion h
        | false =>
          simp only [hfirst] at h
          cases hlast : route.hops.getLast? with
          | none =>
            simp only [hlast] at h
            exact AddResult.noConfusion h
          | some last_hop =>
            simp only [hlast] at h
            cases hamt : update_amounts ctx.edges route.hops with
            | none =>
              simp only [hamt] at h
              exact AddResult.noConfusion h
            | some hops_amounts =>
              simp only [hamt] at h
              cases hexp : update_expiry ctx.edges hops_amounts
                  (ctx.block_height + ctx.cltv_expiry_last_hop) with
              | none =>
                simp only [hexp] at h
                exact AddResult.noConfusion h
              | some pr =>
                simp only [hexp] at h
                cases hurt : update_route_totals threshold pr.2
                    { route with hops := pr.1 ++
                      [create_new_hop ctx.own_pubkey last_hop.amt_to_forward_msat
                        channel (ctx.block_height + ctx.cltv_expiry_last_hop)] } with
                | none =>
                  simp only [hurt] at h
                  exact AddResult.noConfusion h
                | some o =>
                  cases o with
                  | none =>
                    simp only [hurt] at h
                    exact AddResult.noConfusion h
                  | some r =>
                    simp only [hurt, AddResult.accepted.injEq] at h
                    subst h
                    refine ⟨last_hop, hops_amounts, pr.1, pr.2, rfl, rfl,
                      rfl, rfl, by rw [hexp], ?_⟩
                    exact update_route_totals_hops _ _ _ _ hurt

/-- C5: when either precondition fails — the first-hop channel's
local ratio after sending the amount would be below one half, or the
first hop's target identity equals the rebalance channel's
counterparty — `add_channel` returns the rejection value (`None` in
the source, `rejected` here), not an exception and not a route.  The
graph snapshot `ctx.edges` is unconstrained, so the rejection happens
before any fee or expiry computation could even resolve a policy, and
no hop is modified (the rejection carries no route). -/
theorem c5_preconditions_reject (ctx : Ctx) (threshold : Int) (route : Route)
    (channel : Channel) (first : Hop) (rest : List Hop) (c : Channel)
    (hhops : route.hops = first :: rest)
    (hch : get_channel ctx.channels first.pub_key = some c)
    (htot : c.remote_balance + c.local_balance ≠ 0)
    (hfail : Rat.divInt (c.local_balance - ctx.amount)
        (c.remote_balance + c.local_balance) < Rat.divInt 1 2 ∨
      first.pub_key = channel.remote_pubkey) :
    add_channel ctx threshold route channel = .rejected := by
  have hlow : low_local_ratio_after_sending ctx (first :: rest) =
      some (decide (Rat.divInt (c.local_balance - ctx.amount)
        (c.remote_balance + c.local_balance) < Rat.divInt 1 2)) := by
    unfold low_local_ratio_after_sending
    simp only [hch]
    rw [show (c.remote_balance + ctx.amount) + (c.local_balance - ctx.amount) =
        c.remote_balance + c.local_balance from by ring]
    rw [if_neg htot]
  unfold add_channel
  rw [hhops]
  simp only [hlow]
  rcases hfail with hlt | heq
  · rw [decide_eq_true hlt]
  · by_cases hlt : Rat.divInt (c.local_balance - ctx.amount)
        (c.remote_balance + c.local_balance) < Rat.divInt 1 2
    · rw [decide_eq_true hlt]
    · rw [decide_eq_false hlt]
      unfold is_first_hop
      dsimp only
      rw [show (first.pub_key == channel.remote_pubkey) = true from
        beq_iff_eq.mpr heq]

/-- First-hop channel already remote-light: sending 10000 pushes it to
ratio 0.3, so the ratio precondition fails. -/
def chW : Channel := ⟨11, "W", 100000, 40000, 60000⟩

/-- Hop toward `"W"` used by the C5 witness route. -/
def hW0 : Hop := ⟨1, 100000, 1000, 1000000, 0, 0, 0, "W"⟩

/-- Context for the C5 witness; its graph snapshot is empty, so any
fee computation would crash — the rejection never reaches one. -/
def exCtxW : Ctx := ⟨[], [chW], 10000, "S", 600000, 144⟩

/-- Route for the C5 witness. -/
def exRouteW : Route := ⟨[hW0], 0, 0, 0, 0, 0⟩

/-- Witness for C5: the ratio precondition fails concretely and the
augmenter rejects. -/
theorem c5_preconditions_reject_witness :
    exRouteW.hops = hW0 :: [] ∧
    get_channel exCtxW.channels hW0.pub_key = some chW ∧
    chW.remote_balance + chW.local_balance ≠ 0 ∧
    (Rat.divInt (chW.local_balance - exCtxW.amount)
        (chW.remote_balance + chW.local_balance) < Rat.divInt 1 2 ∨
      hW0.pub_key = exChan.remote_pubkey) ∧
    add_channel exCtxW HIGH_FEES_THRESHOLD_MSAT exRouteW exChan = .rejected :=
  ⟨by decide, by decide, by decide, Or.inl (by decide),
   c5_preconditions_reject exCtxW HIGH_FEES_THRESHOLD_MSAT exRouteW exChan hW0 [] chW
     (by decide) (by decide) (by decide) (Or.inl (by decide))⟩

/-- C3: for every route accepted by `add_channel` whose input hop list
already satisfies onion amount consistency, the output hop list is
onion amount consistent across every adjacent pair — including the
boundary with the appended terminal hop, which carries zero fee and
forwards exactly what the (unchanged, since the fee accumulator starts
at zero) last original hop forwards. -/
theorem c3_amounts_consistent (ctx : Ctx) (threshold : Int) (route : Route)
    (channel : Channel) (result : Route)
    (hcons : amt_consistent route.hops)
    (hacc : add_channel ctx threshold route channel = .accepted result) :
    amt_consistent result.hops ∧
    ∃ appended orig_last,
      result.hops.getLast? = some appended ∧
      route.hops.getLast? = some orig_last ∧
      appended.fee_msat = 0 ∧
      appended.amt_to_forward_msat = orig_last.amt_to_forward_msat := by
  obtain ⟨last_hop, hops_amounts, hops_expiry, tl, hlow, hfirst, hlast, hamt,
    hexp, hres⟩ := add_channel_accepted_inv ctx threshold route channel result hacc
  have hc1 : amt_consistent hops_amounts :=
    update_amounts_chain ctx.edges route.hops hops_amounts hamt hcons
  obtain ⟨hmap_af, hmap_pub⟩ :=
    update_expiry_forward ctx.edges hops_amounts hops_expiry _ tl hexp
  have hchain_iff : ∀ l : List Hop, amt_consistent l ↔
      List.Chain' (fun p q : Int × Int => p.1 = q.1 + q.2) (l.map hop_amt_fee) := by
    intro l
    unfold amt_consistent
    exact (@List.chain'_map (Int × Int) Hop
      (fun p q => p.1 = q.1 + q.2) hop_amt_fee l).symm
  have hc2 : amt_consistent hops_expiry := by
    rw [hchain_iff, hmap_af, ← hchain_iff]
    exact hc1
  obtain ⟨f, hfee, hlastA⟩ :=
    update_amounts_last ctx.edges route.hops hops_amounts last_hop hamt hlast
  obtain ⟨z, hz, hzamt⟩ : ∃ z, hops_expiry.getLast? = some z ∧
      z.amt_to_forward_msat = last_hop.amt_to_forward_msat := by
    have h1 : (hops_expiry.map hop_amt_fee).getLast? =
        (hops_amounts.map hop_amt_fee).getLast? := by rw [hmap_af]
    rw [List.getLast?_map, List.getLast?_map, hlastA] at h1
    cases hz : hops_expiry.getLast? with
    | none =>
      rw [hz] at h1
      exact Option.noConfusion h1
    | some z =>
      rw [hz] at h1
      simp only [Option.map_some', Option.some.injEq] at h1
      refine ⟨z, rfl, ?_⟩
      have h2 := congrArg Prod.fst h1
      simp only [hop_amt_fee, set_amt_fee] at h2
      exact h2
  constructor
  · rw [hres]
    unfold amt_consistent at hc2 ⊢
    rw [List.chain'_append]
    refine ⟨hc2, List.chain'_singleton _, ?_⟩
    intro x hx y hy
    simp only [List.head?_cons, Option.mem_def, Option.some.injEq] at hy
    subst hy
    rw [Option.mem_def, hz, Option.some.injEq] at hx
    subst hx
    simp only [create_new_hop, hzamt, add_zero]
  · refine ⟨create_new_hop ctx.own_pubkey last_hop.amt_to_forward_msat channel
      (ctx.block_height + ctx.cltv_expiry_last_hop), last_hop, ?_, hlast, rfl, rfl⟩
    rw [hres]
    exact List.getLast?_concat _

/-- Witness for C3: the concrete accepted augmentation of `exRoute`
(one hop, trivially consistent) by `exChan` yields the consistent
three-field result checked by evaluation. -/
theorem c3_amounts_consistent_witness :
    amt_consistent exRoute.hops ∧
    (amt_consistent exAug.hops ∧
    ∃ appended orig_last,
      exAug.hops.getLast? = some appended ∧
      exRoute.hops.getLast? = some orig_last ∧
      appended.fee_msat = 0 ∧
      appended.amt_to_forward_msat = orig_last.amt_to_forward_msat) :=
  ⟨by decide,
   c3_amounts_consistent exCtx HIGH_FEES_THRESHOLD_MSAT exRoute exChan exAug
     (by decide) (by decide)⟩

theorem update_amounts_rev_none (edges : List Edge) :
    ∀ (l : List Hop) (acc : Int),
      (∃ hp ∈ l, get_policy edges hp.chan_id hp.pub_key = none) →
      update_amounts_rev edges l acc = none := by
  intro l
  induction l with
  | nil =>
    intro acc hex
    obtain ⟨x, hx, _⟩ := hex
    exact absurd hx (List.not_mem_nil x)
  | cons hop rest ih =>
    intro acc hex
    unfold update_amounts_rev
    cases hp : get_policy edges hop.chan_id hop.pub_key with
    | none => simp [get_fee_msat, hp]
    | some policy =>
      obtain ⟨x, hx, hxn⟩ := hex
      rcases List.mem_cons.mp hx with rfl | hxr
      · rw [hp] at hxn
        exact Option.noConfusion hxn
      · simp [get_fee_msat, hp, ih _ ⟨x, hxr, hxn⟩]

theorem update_amounts_map_pub (edges : List Edge) (hops hops' : List Hop)
    (h : update_amounts edges hops = some hops') :
    hops'.map Hop.pub_key = hops.map Hop.pub_key := by
  unfold update_amounts at h
  cases hr : update_amounts_rev edges hops.reverse 0 with
  | none =>
    rw [hr] at h
    exact Option.noConfusion h
  | some l' =>
    rw [hr] at h
    simp only [Option.map_some', Option.some.injEq] at h
    subst h
    have hm := update_amounts_rev_map_pub edges hops.reverse 0 l' hr
    rw [List.map_reverse, hm, List.map_reverse, List.reverse_reverse]

/-- C6 (amended): when a hop's channel has no matching graph edge, the
augmenter does not skip the candidate — the fee computation raises an
uncaught `AttributeError` (a process crash), even though both
preconditions passed. -/
theorem c6_missing_policy_crash (ctx : Ctx) (threshold : Int) (route : Route)
    (channel : Channel)
    (hlow : low_local_ratio_after_sending ctx route.hops = some false)
    (hfirst : is_first_hop route.hops channel = some false)
    (hmiss : ∃ hp ∈ route.hops, get_policy ctx.edges hp.chan_id hp.pub_key = none) :
    add_channel ctx threshold route channel = .crash := by
  have hupd : update_amounts ctx.edges route.hops = none := by
    unfold update_amounts
    rw [update_amounts_rev_none ctx.edges route.hops.reverse 0 ?_]
    · rfl
    · obtain ⟨x, hx, hxn⟩ := hmiss
      exact ⟨x, List.mem_reverse.mpr hx, hxn⟩
  simp only [add_channel, hlow, hfirst]
  cases hl : route.hops.getLast? with
  | none => rfl
  | some last => simp only [hupd]

/-- C6 counterexample: with an empty graph snapshot the concrete route
is not surfaced as a skipped candidate — `add_channel` crashes, which
refutes the claim that a missing edge can never crash the process. -/
theorem c6_missing_policy_not_skipped :
    add_channel exCtxNoEdges HIGH_FEES_THRESHOLD_MSAT exRoute exChan = .crash ∧
    AddResult.crash ≠ AddResult.rejected :=
  ⟨by decide, by decide⟩

/-- Witness for the amended C6 at the concrete empty-graph context. -/
theorem c6_missing_policy_crash_witness :
    low_local_ratio_after_sending exCtxNoEdges exRoute.hops = some false ∧
    is_first_hop exRoute.hops exChan = some false ∧
    (∃ hp ∈ exRoute.hops, get_policy exCtxNoEdges.edges hp.chan_id hp.pub_key = none) ∧
    add_channel exCtxNoEdges HIGH_FEES_THRESHOLD_MSAT exRoute exChan = .crash :=
  ⟨by decide, by decide, ⟨h0, by decide, by decide⟩,
   c6_missing_policy_crash exCtxNoEdges HIGH_FEES_THRESHOLD_MSAT exRoute exChan
     (by decide) (by decide) ⟨h0, by decide, by decide⟩⟩

/-- C7 (amended): re-running `add_channel` on an already-augmented
route is not detected: the preconditions look only at the first hop,
so whenever the second run is accepted it has silently appended a
second terminal hop — each accepted run extends the hop identities by
the node's own pubkey. -/
theorem c7_rerun_appends_again (ctx : Ctx) (threshold : Int) (route : Route)
    (channel : Channel) (r1 r2 : Route)
    (h1 : add_channel ctx threshold route channel = .accepted r1)
    (h2 : add_channel ctx threshold r1 channel = .accepted r2) :
    r1.hops.map Hop.pub_key = route.hops.map Hop.pub_key ++ [ctx.own_pubkey] ∧
    r2.hops.map Hop.pub_key = r1.hops.map Hop.pub_key ++ [ctx.own_pubkey] := by
  have key : ∀ r res : Route, add_channel ctx threshold r channel = .accepted res →
      res.hops.map Hop.pub_key = r.hops.map Hop.pub_key ++ [ctx.own_pubkey] := by
    intro r res hacc
    obtain ⟨last_hop, hops_amounts, hops_expiry, tl, _, _, _, hamt, hexp, hres⟩ :=
      add_channel_accepted_inv ctx threshold r channel res hacc
    have m1 := update_amounts_map_pub ctx.edges r.hops hops_amounts hamt
    have m2 := (update_expiry_forward ctx.edges hops_amounts hops_expiry _ tl hexp).2
    rw [hres, List.map_append, m2, m1]
    rfl
  exact ⟨key route r1 h1, key r1 r2 h2⟩

/-- C7 counterexample: re-running augmentation on the already-augmented
`exAug` with the same inputs is accepted — not rejected as misuse —
and the result carries two terminal hops toward the node's own
identity `"S"`. -/
theorem c7_rerun_not_rejected :
    add_channel exCtx HIGH_FEES_THRESHOLD_MSAT exRoute exChan = .accepted exAug ∧
    add_channel exCtx HIGH_FEES_THRESHOLD_MSAT exAug exChan = .accepted exAug2 ∧
    exAug2.hops.map Hop.pub_key = ["A", "S", "S"] :=
  ⟨by decide, by decide, by decide⟩

/-- Witness for the amended C7 at the concrete double augmentation. -/
theorem c7_rerun_appends_again_witness :
    add_channel exCtx HIGH_FEES_THRESHOLD_MSAT exRoute exChan = .accepted exAug ∧
    add_channel exCtx HIGH_FEES_THRESHOLD_MSAT exAug exChan = .accepted exAug2 ∧
    (exAug.hops.map Hop.pub_key = exRoute.hops.map Hop.pub_key ++ [exCtx.own_pubkey] ∧
     exAug2.hops.map Hop.pub_key = exAug.hops.map Hop.pub_key ++ [exCtx.own_pubkey]) :=
  ⟨by decide, by decide,
   c7_rerun_appends_again exCtx HIGH_FEES_THRESHOLD_MSAT exRoute exChan exAug exAug2
     (by decide) (by decide)⟩

/-- The Boolean filter condition of the candidate selector: local
ratio strictly below one half. -/
def low_local_b (channel : Channel) : Bool :=
  decide (Rat.divInt channel.local_balance
    (channel.remote_balance + channel.local_balance) < Rat.divInt 1 2)

/-- Claim-facing phrasing of the filter condition: the channel's local
ratio exists and is below one half. -/
def ratio_lt_half (channel : Channel) : Prop :=
  ∃ q, get_local_ratio_val channel = some q ∧ q < (1 : ℚ)/2

theorem filter_low_local_eq :
    ∀ channels : List Channel,
      (∀ c ∈ channels, c.remote_balance + c.local_balance ≠ 0) →
      filter_low_local channels = some (channels.filter low_local_b) := by
  intro channels
  induction channels with
  | nil => intro _; rfl
  | cons c rest ih =>
    intro htot
    have hc := htot c (List.mem_cons_self c rest)
    unfold filter_low_local
    have hrb : ratio_below_half c = some (low_local_b c) := by
      unfold ratio_below_half get_local_ratio_val
      rw [if_neg hc]
      rfl
    rw [hrb, ih (fun x hx => htot x (List.mem_cons_of_mem c hx))]
    rw [List.filter_cons]
    cases hb : low_local_b c with
    | true => simp [hb]
    | false => simp [hb]

theorem low_local_b_iff (c : Channel)
    (hc : c.remote_balance + c.local_balance ≠ 0) :
    low_local_b c = true ↔ ratio_lt_half c := by
  have hhalf : Rat.divInt 1 2 = (1 : ℚ)/2 := by
    rw [Rat.divInt_eq_div]
    norm_num
  unfold low_local_b ratio_lt_half get_local_ratio_val
  rw [if_neg hc, decide_eq_true_eq, hhalf]
  constructor
  · intro h
    exact ⟨_, rfl, h⟩
  · rintro ⟨q, hq, hlt⟩
    rw [Option.some.injEq] at hq
    rw [hq]
    exact hlt

/-- C9: on a snapshot of active channels whose totals are nonzero (a
zero-total channel would raise `ZeroDivisionError`, see C10), the
candidate selector returns exactly the channels with local ratio below
one half, in descending order of remote surplus, with ties kept in
input order (every already-descending subsequence of the filtered
input survives as a subsequence of the output — the stability of
Python's `sorted`). -/
theorem c9_candidates (channels : List Channel)
    (htot : ∀ c ∈ channels, c.remote_balance + c.local_balance ≠ 0) :
    ∃ l, get_rebalance_candidates channels = some l ∧
      l.Perm (channels.filter low_local_b) ∧
      (∀ c ∈ channels, low_local_b c = true ↔ ratio_lt_half c) ∧
      l.Pairwise (fun a b => get_remote_surplus b ≤ get_remote_surplus a) ∧
      (∀ sub : List Channel, sub.Pairwise (fun a b => surplus_ge a b = true) →
        sub.Sublist (channels.filter low_local_b) →
        sub.Sublist l) := by
  have htrans : ∀ a b c : Channel, surplus_ge a b = true → surplus_ge b c = true →
      surplus_ge a c = true := by
    intro a b c hab hbc
    simp only [surplus_ge, decide_eq_true_eq] at hab hbc ⊢
    exact le_trans hbc hab
  have htotal : ∀ a b : Channel, (surplus_ge a b || surplus_ge b a) = true := by
    intro a b
    simp only [surplus_ge, Bool.or_eq_true, decide_eq_true_eq]
    exact le_total _ _
  refine ⟨(channels.filter low_local_b).mergeSort surplus_ge, ?_, ?_, ?_, ?_, ?_⟩
  · unfold get_rebalance_candidates
    rw [filter_low_local_eq channels htot]
    rfl
  · exact List.mergeSort_perm _ _
  · intro c hc
    exact low_local_b_iff c (htot c hc)
  · have hp := List.sorted_mergeSort htrans htotal (channels.filter low_local_b)
    exact hp.imp (fun h => by
      simp only [surplus_ge, decide_eq_true_eq] at h
      exact h)
  · intro sub hpair hsub
    exact List.sublist_mergeSort htrans htotal hpair hsub

/-- Channel A of the spec's candidate-ordering example:
remote 80, local 20 (surplus 60). -/
def cA : Channel := ⟨1, "a", 100, 20, 80⟩

/-- Channel B of the example: remote 60, local 40 (surplus 20). -/
def cB : Channel := ⟨2, "b", 100, 40, 60⟩

/-- Channel C of the example: remote 40, local 60 (ratio above one
half, excluded). -/
def cC : Channel := ⟨3, "c", 100, 60, 40⟩

/-- Witness for C9: the spec's concrete example — the selector keeps
`[A, B]` in that order and drops `C`. -/
theorem c9_candidates_witness :
    (∀ c ∈ [cA, cB, cC], c.remote_balance + c.local_balance ≠ 0) ∧
    get_rebalance_candidates [cA, cB, cC] = some [cA, cB] ∧
    (∃ l, get_rebalance_candidates [cA, cB, cC] = some l ∧
      l.Perm ([cA, cB, cC].filter low_local_b) ∧
      (∀ c ∈ [cA, cB, cC], low_local_b c = true ↔ ratio_lt_half c) ∧
      l.Pairwise (fun a b => get_remote_surplus b ≤ get_remote_surplus a) ∧
      (∀ sub : List Channel, sub.Pairwise (fun a b => surplus_ge a b = true) →
        sub.Sublist ([cA, cB, cC].filter low_local_b) →
        sub.Sublist l)) := by
  refine ⟨by decide, ?_, c9_candidates [cA, cB, cC] (by decide)⟩
  have h1 : filter_low_local [cA, cB, cC] = some [cA, cB] := by decide
  unfold get_rebalance_candidates
  rw [h1]
  simp [List.mergeSort, surplus_ge, get_remote_surplus, cA, cB]

/-- C10: the local-ratio computations are defined exactly when the
channel's total balance is nonzero.  With a zero total balance the
lookup raises (`none`); with a positive total it never faults and, for
non-negative balances, yields a ratio in `[0, 1]`.  The after-sending
ratio of `low_local_ratio_after_sending` has denominator
`(remote + amount) + (local - amount)`, which equals the channel's
unchanged total balance, so it is defined under the same
precondition. -/
theorem c10_local_ratio_safety (ctx : Ctx) (channel : Channel) (first : Hop)
    (rest : List Hop)
    (hch : get_channel ctx.channels first.pub_key = some channel) :
    (channel.remote_balance + channel.local_balance = 0 →
        get_local_ratio_val channel = none) ∧
    (0 < channel.remote_balance + channel.local_balance →
      ∃ q, get_local_ratio_val channel = some q ∧
        q = (channel.local_balance : ℚ) /
            ((channel.remote_balance : ℚ) + (channel.local_balance : ℚ)) ∧
        (0 ≤ channel.local_balance → 0 ≤ channel.remote_balance →
          0 ≤ q ∧ q ≤ 1)) ∧
    ((channel.remote_balance + ctx.amount) + (channel.local_balance - ctx.amount) =
        channel.remote_balance + channel.local_balance) ∧
    (channel.remote_balance + channel.local_balance ≠ 0 →
      low_local_ratio_after_sending ctx (first :: rest) =
        some (decide (Rat.divInt (channel.local_balance - ctx.amount)
          (channel.remote_balance + channel.local_balance) < Rat.divInt 1 2))) := by
  refine ⟨?_, ?_, by ring, ?_⟩
  · intro h
    unfold get_local_ratio_val
    rw [if_pos h]
  · intro hpos
    have hne : channel.remote_balance + channel.local_balance ≠ 0 := ne_of_gt hpos
    refine ⟨Rat.divInt channel.local_balance
        (channel.remote_balance + channel.local_balance), ?_, ?_, ?_⟩
    · unfold get_local_ratio_val
      rw [if_neg hne]
    · rw [Rat.divInt_eq_div]
      push_cast
      ring
    · intro hl hr
      constructor
      · exact Rat.divInt_nonneg hl (le_of_lt hpos)
      · rw [Rat.divInt_eq_div]
        rw [div_le_one (by exact_mod_cast hpos)]
        exact_mod_cast le_add_of_nonneg_left hr
  · intro hne
    unfold low_local_ratio_after_sending
    simp only [hch]
    rw [show (channel.remote_balance + ctx.amount) +
        (channel.local_balance - ctx.amount) =
        channel.remote_balance + channel.local_balance from by ring]
    rw [if_neg hne]

/-- Witness for C10 at the concrete channel `chA` (total balance
200000, both balances non-negative) looked up from hop `h0`. -/
theorem c10_local_ratio_safety_witness :
    get_channel exCtx.channels h0.pub_key = some chA ∧
    ((chA.remote_balance + chA.local_balance = 0 →
        get_local_ratio_val chA = none) ∧
    (0 < chA.remote_balance + chA.local_balance →
      ∃ q, get_local_ratio_val chA = some q ∧
        q = (chA.local_balance : ℚ) /
            ((chA.remote_balance : ℚ) + (chA.local_balance : ℚ)) ∧
        (0 ≤ chA.local_balance → 0 ≤ chA.remote_balance →
          0 ≤ q ∧ q ≤ 1)) ∧
    ((chA.remote_balance + exCtx.amount) + (chA.local_balance - exCtx.amount) =
        chA.remote_balance + chA.local_balance) ∧
    (chA.remote_balance + chA.local_balance ≠ 0 →
      low_local_ratio_after_sending exCtx (h0 :: []) =
        some (decide (Rat.divInt (chA.local_balance - exCtx.amount)
          (chA.remote_balance + chA.local_balance) < Rat.divInt 1 2)))) :=
  ⟨by decide, c10_local_ratio_safety exCtx chA h0 [] (by decide)⟩

end Rebalance
